import Mathlib

/-!
Shallow embedding of the seed-extension / redundancy-elimination core of a
short-read aligner (two C++ headers: aligner_sw_nuc.h and
aligner_sw_driver.h), together with theorems settling the specification
claims about it.  Machine integers: size_t and uint32_t values appear only
in comparisons and in order-respecting arithmetic here, so they are
modelled as Nat; TAlScore (int64_t) and the C++ int are modelled as Int;
the C++ doubles of the row sampler are modelled as real numbers (exact
arithmetic).
-/

/-! ## SeedPos (aligner_sw_driver.h lines 94-152) -/

structure SeedPos where
  fw : Bool
  offidx : ℕ
  rdoff : ℕ
  seedlen : ℕ
deriving DecidableEq

/-- Embedding of SeedPos::operator< (aligner_sw_driver.h lines 119-129):
the cascade of early returns becomes a cascade of ifs. -/
def SeedPos.lt (p o : SeedPos) : Bool :=
  if p.offidx < o.offidx then true
  else if p.offidx > o.offidx then false
  else if p.rdoff < o.rdoff then true
  else if p.rdoff > o.rdoff then false
  else if p.seedlen < o.seedlen then true
  else if p.seedlen > o.seedlen then false
  else if p.fw && !o.fw then true
  else if !p.fw && o.fw then false
  else false

/-- Embedding of SeedPos::operator> (aligner_sw_driver.h lines 131-141). -/
def SeedPos.gt (p o : SeedPos) : Bool :=
  if p.offidx < o.offidx then false
  else if p.offidx > o.offidx then true
  else if p.rdoff < o.rdoff then false
  else if p.rdoff > o.rdoff then true
  else if p.seedlen < o.seedlen then false
  else if p.seedlen > o.seedlen then true
  else if p.fw && !o.fw then false
  else if !p.fw && o.fw then true
  else false

/-- Embedding of SeedPos::operator== (aligner_sw_driver.h lines 143-146). -/
def SeedPos.eqOp (p o : SeedPos) : Bool :=
  p.fw == o.fw && p.offidx == o.offidx && p.rdoff == o.rdoff && p.seedlen == o.seedlen

/-- Sort key for the strand flag: forward (fw = true) sorts before
reverse-complement. -/
def strandRank (fw : Bool) : ℕ := if fw then 0 else 1

/-- The lexicographic strict order over (offset-set index, in-read offset,
seed length, strand) that the spec says the SeedPos operators implement. -/
def seedPosKeyLt (a b : SeedPos) : Prop :=
  a.offidx < b.offidx ∨ (a.offidx = b.offidx ∧
    (a.rdoff < b.rdoff ∨ (a.rdoff = b.rdoff ∧
      (a.seedlen < b.seedlen ∨ (a.seedlen = b.seedlen ∧
        strandRank a.fw < strandRank b.fw)))))

/-! ## DpNucFrame (aligner_sw_nuc.h lines 40-80) -/

structure DpNucFrame (S : Type) where
  nedsz : ℕ
  aedsz : ℕ
  celsz : ℕ
  row : ℕ
  col : ℕ
  gaps : ℕ
  readGaps : ℕ
  refGaps : ℕ
  score : S
  ct : ℤ

/-- Embedding of DpNucFrame::init (aligner_sw_nuc.h lines 45-67): every
field of the frame is overwritten with the corresponding argument.  The
AlnScore type lives in aligner_result.h (outside this repository), so the
score field is kept generic in a type S. -/
def DpNucFrame.init {S : Type} (fr : DpNucFrame S)
    (nedsz aedsz celsz row col gaps readGaps refGaps : ℕ)
    (score : S) (ct : ℤ) : DpNucFrame S :=
  { fr with
    nedsz := nedsz
    aedsz := aedsz
    celsz := celsz
    row := row
    col := col
    gaps := gaps
    readGaps := readGaps
    refGaps := refGaps
    score := score
    ct := ct }

/-- Modelled from the spec: the backtrace frame stack itself lives in
aligner_sw.cpp, which is not among the repository files here; the spec says
frames form a stack (push at a branch point, pop to resume), modelled as a
list with its head as the top. -/
def btPush {S : Type} (stk : List (DpNucFrame S)) (fr : DpNucFrame S) :
    List (DpNucFrame S) :=
  fr :: stk

/-- Modelled from the spec: popping the backtrace frame stack returns the
most recently pushed frame and the rest of the stack. -/
def btPop {S : Type} : List (DpNucFrame S) → Option (DpNucFrame S × List (DpNucFrame S))
  | [] => none
  | fr :: stk => some (fr, stk)

/-! ## Backtrace candidate fates (aligner_sw_nuc.h lines 82-88) -/

def BT_CAND_FATE_SUCCEEDED : ℤ := 1
def BT_CAND_FATE_FAILED : ℤ := 2
def BT_CAND_FATE_FILT_START : ℤ := 3
def BT_CAND_FATE_FILT_DOMINATED : ℤ := 4
def BT_CAND_FATE_FILT_SCORE : ℤ := 5

/-! ## DpNucBtCandidate (aligner_sw_nuc.h lines 93-182) -/

structure DpNucBtCandidate where
  row : ℕ
  col : ℕ
  score : ℤ
  fate : ℤ
deriving DecidableEq

/-- Embedding of DpNucBtCandidate::init (aligner_sw_nuc.h lines 103-110):
sets row, column and score and marks the fate as 0 = invalid. -/
def DpNucBtCandidate.init (c : DpNucBtCandidate)
    (row col : ℕ) (score : ℤ) : DpNucBtCandidate :=
  { c with row := row, col := col, score := score, fate := 0 }

/-- Embedding of DpNucBtCandidate::reset (aligner_sw_nuc.h line 101). -/
def DpNucBtCandidate.reset (c : DpNucBtCandidate) : DpNucBtCandidate :=
  c.init 0 0 0

/-- Embedding of the default constructor (aligner_sw_nuc.h line 95), which
calls reset(). -/
def DpNucBtCandidate.mkDefault : DpNucBtCandidate :=
  DpNucBtCandidate.reset ⟨0, 0, 0, 0⟩

/-- Embedding of DpNucBtCandidate::dominatedBy (aligner_sw_nuc.h lines
119-129): conditionally swap to obtain the larger and smaller row and
column, then compare the (nonnegative) differences against SQ = 40.  The
rows and columns are size_t; after the swap both subtractions are of the
smaller from the larger, so Nat subtraction is exact. -/
def DpNucBtCandidate.dominatedBy (c o : DpNucBtCandidate) : Bool :=
  let SQ : ℕ := 40
  let rowhi := if c.row < o.row then o.row else c.row
  let rowlo := if c.row < o.row then c.row else o.row
  let colhi := if c.col < o.col then o.col else c.col
  let collo := if c.col < o.col then c.col else o.col
  decide (colhi - collo ≤ SQ) && decide (rowhi - rowlo ≤ SQ)

/-- The domination relation exactly as the spec words it: B is dominated by
A when B lies in the 40 by 40 square extending up and to the left of A and
B's score is no better than A's.  Written from the spec, to be compared
with the source's dominatedBy. -/
def specDominatedBy (b a : DpNucBtCandidate) : Prop :=
  b.row ≤ a.row ∧ a.row - b.row ≤ 40 ∧
  b.col ≤ a.col ∧ a.col - b.col ≤ 40 ∧
  b.score ≤ a.score

/-- Concrete candidate used to refute claim C1: a low-scoring candidate at
cell (10, 10). -/
def candA : DpNucBtCandidate := ⟨10, 10, 0, 0⟩

/-- Concrete candidate used to refute claim C1: a high-scoring candidate at
cell (50, 50), down and to the right of candA. -/
def candB : DpNucBtCandidate := ⟨50, 50, 100, 0⟩

/-! ## RowSampler (aligner_sw_driver.h lines 178-237)

The C++ doubles are modelled as real numbers, so all of the arithmetic is
exact.  Of a SATupleAndPos only the size of its sat range matters to the
sampler, so init receives the list of those sizes. -/

/-- The weight the sampler gives a range: 1 / sqrt(size of the range)
(aligner_sw_driver.h line 198). -/
noncomputable def rsWeight (sz : ℕ) : ℝ := 1 / Real.sqrt sz

structure RowSampler where
  mass : ℝ
  elim : List Bool
  masses : List ℝ

/-- Sum of the masses of the non-eliminated ranges, walking the two lists
in step.  This is the quantity the spec calls the active (total) mass. -/
def activeMassAux : List ℝ → List Bool → ℝ
  | [], _ => 0
  | _ :: _, [] => 0
  | m :: ms, e :: es => (if e then 0 else m) + activeMassAux ms es

/-- Embedding of RowSampler::init (aligner_sw_driver.h lines 190-201):
elim_ is resized to saf - sai and filled with false; masses_[i - sai] gets
the weight 1 / sqrt(salist[i].sat.size()) for i in [sai, saf), i.e. the
weights of the slice of salist from sai to saf; mass_ accumulates the
weights left to right starting from 0.  The code asserts sai < saf and
indexes salist up to saf, hypotheses the theorems carry. -/
noncomputable def RowSampler.init (salist : List ℕ) (sai saf : ℕ) : RowSampler :=
  let sizes := (salist.drop sai).take (saf - sai)
  let ms := sizes.map rsWeight
  { mass := ms.foldl (· + ·) 0
    elim := List.replicate (saf - sai) false
    masses := ms }

/-- Embedding of RowSampler::finishedRange (aligner_sw_driver.h lines
207-211): mark index i eliminated and subtract its mass.  The code asserts
i < masses_.size(), a hypothesis the theorems carry. -/
def RowSampler.finishedRange (rs : RowSampler) (i : ℕ) : RowSampler :=
  { rs with elim := rs.elim.set i true, mass := rs.mass - rs.masses.getD i 0 }

/-- Folding finishedRange over a list of indices, for stating what a
sequence of finishedRange calls does. -/
def RowSampler.applyAll (rs : RowSampler) (L : List ℕ) : RowSampler :=
  L.foldl RowSampler.finishedRange rs

/-- Embedding of the loop of RowSampler::next (aligner_sw_driver.h lines
220-228): walk the masses and elimination flags in step, skipping
eliminated entries and accumulating sofar, and return the first index at
which rd < sofar; indices are counted relative to the current position, so
the recursive results are shifted by one.  Falling off the end reaches the
assert(false) at line 229, modelled as none (with assertions enabled the
program aborts there; the masses and elim lists always have equal length,
so the mismatched-length branch is never reached). -/
noncomputable def dartLoop (rd : ℝ) : List ℝ → List Bool → ℝ → Option ℕ
  | [], _, _ => none
  | _ :: _, [], _ => none
  | m :: ms, e :: es, sofar =>
    if e then (dartLoop rd ms es sofar).map (· + 1)
    else if rd < sofar + m then some 0
    else (dartLoop rd ms es (sofar + m)).map (· + 1)

/-- Embedding of RowSampler::next (aligner_sw_driver.h lines 216-231):
rndFloat stands for the uniform draw rnd.nextFloat() in [0, 1); the dart
rd = rndFloat * mass_ is thrown at the non-eliminated masses. -/
noncomputable def RowSampler.next (rs : RowSampler) (rndFloat : ℝ) : Option ℕ :=
  dartLoop (rndFloat * rs.mass) rs.masses rs.elim 0

/-- Cumulative non-eliminated mass of the first n ranges. -/
def cumActive (ms : List ℝ) (es : List Bool) (n : ℕ) : ℝ :=
  activeMassAux (ms.take n) (es.take n)

/-! ## SwDriver (aligner_sw_driver.h lines 239-476)

Only the members nextRead touches are modelled.  Their classes
(RedundantAlns in aligner_sw.h, EIvalMergeList in ival_list.h) are outside
this repository, so they are modelled from the spec. -/

/-- Modelled from the spec: a Redundant-Alignment Database records the set
of DP cells consumed by accepted alignments for a read of known length;
only the observable effects of reset (clear everything) and init (record
the read length) matter here, so the recorded cells are kept abstract. -/
structure RedundantAlns where
  cells : List ℕ
  rdlen : Option ℕ
deriving DecidableEq

/-- Modelled from the spec: reset clears the database completely. -/
def RedundantAlns.reset (_ : RedundantAlns) : RedundantAlns :=
  { cells := [], rdlen := none }

/-- Modelled from the spec: init records the read length the database is
initialized with. -/
def RedundantAlns.init (r : RedundantAlns) (len : ℕ) : RedundantAlns :=
  { r with rdlen := some len }

/-- Modelled from the spec: a Diagonal Set is a merged collection of
intervals of diagonals already used; only reset (empty it) matters here. -/
structure EIvalMergeList where
  ivals : List (ℕ × ℕ)
deriving DecidableEq

/-- Modelled from the spec: reset empties the diagonal set. -/
def EIvalMergeList.reset (_ : EIvalMergeList) : EIvalMergeList :=
  { ivals := [] }

/-- The SwDriver members read or written by nextRead (aligner_sw_driver.h
lines 449-457). -/
structure SwDriver where
  seenDiags1 : EIvalMergeList
  seenDiags2 : EIvalMergeList
  redAnchor : RedundantAlns
  redMate1 : RedundantAlns
  redMate2 : RedundantAlns
deriving DecidableEq

/-- Embedding of SwDriver::nextRead (aligner_sw_driver.h lines 379-394):
always reset redAnchor_, seenDiags1_ and seenDiags2_; only when paired,
reset and init redMate1_ and redMate2_ with the mate lengths and raise
maxlen to mate2len if larger; finally init redAnchor_ with maxlen. -/
def SwDriver.nextRead (d : SwDriver) (paired : Bool)
    (mate1len mate2len : ℕ) : SwDriver :=
  let redAnchor0 := d.redAnchor.reset
  let seenDiags1 := d.seenDiags1.reset
  let seenDiags2 := d.seenDiags2.reset
  let maxlen := mate1len
  if paired then
    let redMate1 := (d.redMate1.reset).init mate1len
    let redMate2 := (d.redMate2.reset).init mate2len
    let maxlen := if mate2len > maxlen then mate2len else maxlen
    { d with
      seenDiags1 := seenDiags1
      seenDiags2 := seenDiags2
      redAnchor := redAnchor0.init maxlen
      redMate1 := redMate1
      redMate2 := redMate2 }
  else
    { d with
      seenDiags1 := seenDiags1
      seenDiags2 := seenDiags2
      redAnchor := redAnchor0.init maxlen }

/-- Concrete driver state used to refute claim C2: every component holds
left-over state from a previous read. -/
def dirtyDriver : SwDriver :=
  { seenDiags1 := ⟨[(1, 2)]⟩
    seenDiags2 := ⟨[(3, 4)]⟩
    redAnchor := ⟨[5], some 9⟩
    redMate1 := ⟨[7], some 3⟩
    redMate2 := ⟨[8], some 4⟩ }

/-! ## Helper lemmas -/

/-- dominatedBy holds exactly when the absolute row and column differences
are both at most 40 (expressed with truncated subtraction in both
directions). -/
theorem dominatedBy_iff (c o : DpNucBtCandidate) :
    c.dominatedBy o = true ↔
      (c.row - o.row ≤ 40 ∧ o.row - c.row ≤ 40 ∧
       c.col - o.col ≤ 40 ∧ o.col - c.col ≤ 40) := by
  simp only [DpNucBtCandidate.dominatedBy, Bool.and_eq_true, decide_eq_true_eq]
  split_ifs <;> omega

/-! ## Claim theorems -/

/-- C6: the SeedPos comparison operators implement a total order that is
lexicographic over (offset-set index, in-read offset, seed length, strand),
forward strand first at equal other fields, and SeedPos equality holds
exactly when all four fields are equal. -/
theorem seedPos_total_order (a b : SeedPos) :
    (SeedPos.lt a b = true ↔ seedPosKeyLt a b) ∧
    (SeedPos.gt a b = true ↔ seedPosKeyLt b a) ∧
    (SeedPos.eqOp a b = true ↔ a = b) ∧
    (SeedPos.lt a b = true ∨ SeedPos.gt a b = true ∨ SeedPos.eqOp a b = true) := by
  obtain ⟨fa, oa, ra, sa⟩ := a
  obtain ⟨fb, ob, rb, sb⟩ := b
  simp only [SeedPos.lt, SeedPos.gt, SeedPos.eqOp, seedPosKeyLt, strandRank,
    SeedPos.mk.injEq]
  cases fa <;> cases fb <;> simp <;> omega

/-- C8: DpNucFrame::init stores exactly the ten captured quantities into
the frame's fields, so a pushed frame popped from the backtrace stack
yields every captured value unchanged. -/
theorem dpNucFrame_init_roundtrip (S : Type) (fr : DpNucFrame S)
    (nedsz aedsz celsz row col gaps readGaps refGaps : ℕ) (score : S) (ct : ℤ)
    (stk : List (DpNucFrame S)) :
    ((fr.init nedsz aedsz celsz row col gaps readGaps refGaps score ct).nedsz = nedsz ∧
     (fr.init nedsz aedsz celsz row col gaps readGaps refGaps score ct).aedsz = aedsz ∧
     (fr.init nedsz aedsz celsz row col gaps readGaps refGaps score ct).celsz = celsz ∧
     (fr.init nedsz aedsz celsz row col gaps readGaps refGaps score ct).row = row ∧
     (fr.init nedsz aedsz celsz row col gaps readGaps refGaps score ct).col = col ∧
     (fr.init nedsz aedsz celsz row col gaps readGaps refGaps score ct).gaps = gaps ∧
     (fr.init nedsz aedsz celsz row col gaps readGaps refGaps score ct).readGaps = readGaps ∧
     (fr.init nedsz aedsz celsz row col gaps readGaps refGaps score ct).refGaps = refGaps ∧
     (fr.init nedsz aedsz celsz row col gaps readGaps refGaps score ct).score = score ∧
     (fr.init nedsz aedsz celsz row col gaps readGaps refGaps score ct).ct = ct) ∧
    btPop (btPush stk (fr.init nedsz aedsz celsz row col gaps readGaps refGaps score ct))
      = some (fr.init nedsz aedsz celsz row col gaps readGaps refGaps score ct, stk) :=
  ⟨⟨rfl, rfl, rfl, rfl, rfl, rfl, rfl, rfl, rfl, rfl⟩, rfl⟩

/-- C9: the domination test is symmetric, and its value depends only on
whether the absolute row and column differences are each at most 40 (never
on either candidate's score). -/
theorem dominatedBy_symmetric_score_free (a b : DpNucBtCandidate) (sa sb : ℤ) :
    a.dominatedBy b = b.dominatedBy a ∧
    (a.dominatedBy b = true ↔
      (a.row - b.row ≤ 40 ∧ b.row - a.row ≤ 40 ∧
       a.col - b.col ≤ 40 ∧ b.col - a.col ≤ 40)) ∧
    ({a with score := sa}).dominatedBy {b with score := sb} = a.dominatedBy b := by
  refine ⟨?_, dominatedBy_iff a b, rfl⟩
  rw [Bool.eq_iff_iff, dominatedBy_iff, dominatedBy_iff]
  omega

/-- C10: a freshly constructed or reset DpNucBtCandidate has fate 0, which
differs from each of the five declared fate constants (they start at
BT_CAND_FATE_SUCCEEDED = 1). -/
theorem btCandidate_fresh_fate_invalid (c : DpNucBtCandidate)
    (row col : ℕ) (score : ℤ) :
    (c.init row col score).fate = 0 ∧
    c.reset.fate = 0 ∧
    DpNucBtCandidate.mkDefault.fate = 0 ∧
    ((0 : ℤ) ≠ BT_CAND_FATE_SUCCEEDED ∧ (0 : ℤ) ≠ BT_CAND_FATE_FAILED ∧
     (0 : ℤ) ≠ BT_CAND_FATE_FILT_START ∧ (0 : ℤ) ≠ BT_CAND_FATE_FILT_DOMINATED ∧
     (0 : ℤ) ≠ BT_CAND_FATE_FILT_SCORE) :=
  ⟨rfl, rfl, rfl, by decide, by decide, by decide, by decide, by decide⟩

/-- C1 counterexample: candB (cell (50, 50), score 100) is reported as
dominated by candA (cell (10, 10), score 0) although candB is neither in
the square up and to the left of candA nor of no-better score, so the
claimed equivalence with the spec's domination relation is false. -/
theorem dominatedBy_score_counterexample :
    candB.dominatedBy candA = true ∧ ¬ specDominatedBy candB candA := by
  refine ⟨by decide, fun h => absurd h.1 (by decide)⟩

/-- C1 (amended): dominatedBy reports B dominated by A exactly when the
absolute row difference and absolute column difference are each at most 40;
neither the up-and-left restriction nor the score comparison is part of the
test. -/
theorem dominatedBy_square_only (b a : DpNucBtCandidate) :
    b.dominatedBy a = true ↔
      (b.row - a.row ≤ 40 ∧ a.row - b.row ≤ 40 ∧
       b.col - a.col ≤ 40 ∧ a.col - b.col ≤ 40) :=
  dominatedBy_iff b a

/-- C2 counterexample: on an unpaired call, nextRead leaves the mate-1
database exactly as it was, which differs from the reset-and-initialized
state the claim promises (and likewise for mate 2). -/
theorem nextRead_unpaired_counterexample :
    (dirtyDriver.nextRead false 5 7).redMate1 = dirtyDriver.redMate1 ∧
    (dirtyDriver.nextRead false 5 7).redMate2 = dirtyDriver.redMate2 ∧
    dirtyDriver.redMate1 ≠ (dirtyDriver.redMate1.reset).init 5 ∧
    dirtyDriver.redMate2 ≠ (dirtyDriver.redMate2.reset).init 7 := by
  refine ⟨by decide, by decide, by decide, by decide⟩

/-- C2 (amended): nextRead always resets the two diagonal sets and the
anchor database, initializing the anchor database with the mate-1 length
(unpaired) or the larger mate length (paired); it resets and initializes
the mate-1 and mate-2 databases with their read lengths only when paired
mode is requested, leaving them untouched otherwise. -/
theorem nextRead_reset_semantics (d : SwDriver) (paired : Bool) (l1 l2 : ℕ) :
    (d.nextRead paired l1 l2).seenDiags1 = d.seenDiags1.reset ∧
    (d.nextRead paired l1 l2).seenDiags2 = d.seenDiags2.reset ∧
    (d.nextRead paired l1 l2).redAnchor
      = (d.redAnchor.reset).init (if paired then max l1 l2 else l1) ∧
    (d.nextRead paired l1 l2).redMate1
      = (if paired then (d.redMate1.reset).init l1 else d.redMate1) ∧
    (d.nextRead paired l1 l2).redMate2
      = (if paired then (d.redMate2.reset).init l2 else d.redMate2) := by
  have hmax : (if l2 > l1 then l2 else l1) = max l1 l2 := by
    split_ifs <;> omega
  cases paired <;> simp [SwDriver.nextRead, hmax]

/-! ## RowSampler lemmas -/

theorem foldl_add_eq_sum (l : List ℝ) : ∀ (a : ℝ), l.foldl (· + ·) a = a + l.sum := by
  induction l with
  | nil => intro a; simp
  | cons x l ih => intro a; simp [ih, add_assoc]

theorem activeMassAux_replicate_false (ms : List ℝ) : ∀ (n : ℕ), ms.length ≤ n →
    activeMassAux ms (List.replicate n false) = ms.sum := by
  induction ms with
  | nil => intro n _; rfl
  | cons m ms ih =>
    intro n hn
    cases n with
    | zero => simp at hn
    | succ n =>
      rw [List.replicate_succ]
      simp [activeMassAux, ih n (by simpa using hn)]

theorem getD_replicate_false (n i : ℕ) :
    (List.replicate n false).getD i false = false := by
  induction n generalizing i with
  | zero => rfl
  | succ n ih =>
    cases i with
    | zero => rfl
    | succ i => rw [List.replicate_succ, List.getD_cons_succ]; exact ih i

theorem getD_set_true_ne (es : List Bool) : ∀ (i j : ℕ), i ≠ j →
    (es.set i true).getD j false = es.getD j false := by
  induction es with
  | nil => intro i j _; rfl
  | cons e es ih =>
    intro i j hij
    cases i with
    | zero =>
      cases j with
      | zero => exact absurd rfl hij
      | succ j => rfl
    | succ i =>
      cases j with
      | zero => rfl
      | succ j => simpa [List.set] using ih i j (by omega)

theorem activeMassAux_set_true (ms : List ℝ) : ∀ (es : List Bool) (i : ℕ),
    es.length = ms.length → i < ms.length → es.getD i false = false →
    activeMassAux ms (es.set i true) = activeMassAux ms es - ms.getD i 0 := by
  induction ms with
  | nil => intro es i _ hi _; simp at hi
  | cons m ms ih =>
    intro es i hlen hi hf
    match es with
    | [] => simp at hlen
    | e :: es =>
      simp only [List.length_cons, add_left_inj] at hlen
      cases i with
      | zero =>
        have he : e = false := by simpa using hf
        subst he
        simp [List.set, activeMassAux]
      | succ i =>
        have hf' : es.getD i false = false := by simpa using hf
        simp only [List.set, activeMassAux, List.getD_cons_succ]
        rw [ih es i hlen (by simpa using hi) hf']
        ring

/-- Invariant preservation: starting from a state whose mass equals its
active mass, any sequence of finishedRange calls on in-bounds, not yet
eliminated, pairwise distinct indices keeps mass equal to active mass. -/
theorem applyAll_invariant (L : List ℕ) : ∀ (rs : RowSampler),
    rs.elim.length = rs.masses.length →
    rs.mass = activeMassAux rs.masses rs.elim →
    (∀ i ∈ L, i < rs.masses.length ∧ rs.elim.getD i false = false) →
    L.Pairwise (· ≠ ·) →
    (rs.applyAll L).mass
      = activeMassAux (rs.applyAll L).masses (rs.applyAll L).elim := by
  induction L with
  | nil => intro rs _ hinv _ _; exact hinv
  | cons i L ih =>
    intro rs hlen hinv hb hp
    have hi := hb i (List.mem_cons_self i L)
    have hstep : (rs.finishedRange i).mass
        = activeMassAux (rs.finishedRange i).masses (rs.finishedRange i).elim := by
      simp only [RowSampler.finishedRange]
      rw [activeMassAux_set_true rs.masses rs.elim i hlen hi.1 hi.2, hinv]
    have hlen' : (rs.finishedRange i).elim.length
        = (rs.finishedRange i).masses.length := by
      simpa [RowSampler.finishedRange] using hlen
    have hb' : ∀ j ∈ L, j < (rs.finishedRange i).masses.length ∧
        (rs.finishedRange i).elim.getD j false = false := by
      intro j hj
      have hij : i ≠ j := by
        have := List.pairwise_cons.mp hp
        exact this.1 j hj
      refine ⟨(hb j (List.mem_cons_of_mem i hj)).1, ?_⟩
      show (rs.elim.set i true).getD j false = false
      rw [getD_set_true_ne rs.elim i j hij]
      exact (hb j (List.mem_cons_of_mem i hj)).2
    have hp' : L.Pairwise (· ≠ ·) := (List.pairwise_cons.mp hp).2
    simpa [RowSampler.applyAll] using
      ih (rs.finishedRange i) hlen' hstep hb' hp'

/-- C3: after init followed by finishedRange calls on distinct in-bounds
indices, the total mass equals the sum of the weights of the non-eliminated
ranges (exactly, in the exact-arithmetic model of the doubles), and each
finishedRange(i) decrements the mass by exactly the weight of range i. -/
theorem rowSampler_mass_invariant (salist : List ℕ) (sai saf : ℕ) (L : List ℕ)
    (hsa : sai < saf) (hsf : saf ≤ salist.length)
    (hL : L.Pairwise (· ≠ ·)) (hb : ∀ i ∈ L, i < saf - sai) :
    ((RowSampler.init salist sai saf).applyAll L).mass
      = activeMassAux ((RowSampler.init salist sai saf).applyAll L).masses
          ((RowSampler.init salist sai saf).applyAll L).elim
    ∧ ∀ (rs : RowSampler) (i : ℕ),
        (rs.finishedRange i).mass = rs.mass - rs.masses.getD i 0 := by
  refine ⟨?_, fun rs i => rfl⟩
  have hmlen : (RowSampler.init salist sai saf).masses.length = saf - sai := by
    simp [RowSampler.init]
    omega
  refine applyAll_invariant L (RowSampler.init salist sai saf) ?_ ?_ ?_ hL
  · simp [RowSampler.init]
    omega
  · show ((((salist.drop sai).take (saf - sai)).map rsWeight).foldl (· + ·) 0)
      = activeMassAux (((salist.drop sai).take (saf - sai)).map rsWeight)
          (List.replicate (saf - sai) false)
    rw [foldl_add_eq_sum, zero_add]
    refine (activeMassAux_replicate_false _ (saf - sai) ?_).symm
    simp
  · intro i hi
    refine ⟨by rw [hmlen]; exact hb i hi, ?_⟩
    show (List.replicate (saf - sai) false).getD i false = false
    exact getD_replicate_false (saf - sai) i

/-- C3 witness: the invariant at the concrete sampler over range sizes
1, 4, 9 after eliminating ranges 2 and 0. -/
theorem rowSampler_mass_invariant_witness :
    ((RowSampler.init [1, 4, 9] 0 3).applyAll [2, 0]).mass
      = activeMassAux ((RowSampler.init [1, 4, 9] 0 3).applyAll [2, 0]).masses
          ((RowSampler.init [1, 4, 9] 0 3).applyAll [2, 0]).elim
    ∧ ∀ (rs : RowSampler) (i : ℕ),
        (rs.finishedRange i).mass = rs.mass - rs.masses.getD i 0 :=
  rowSampler_mass_invariant [1, 4, 9] 0 3 [2, 0]
    (by decide) (by decide) (by decide) (by decide)

theorem cumActive_zero (ms : List ℝ) (es : List Bool) : cumActive ms es 0 = 0 := rfl

theorem cumActive_cons (m : ℝ) (ms : List ℝ) (e : Bool) (es : List Bool) (n : ℕ) :
    cumActive (m :: ms) (e :: es) (n + 1)
      = (if e then 0 else m) + cumActive ms es n := rfl

/-- Correctness of the dart-throw loop: if the dart rd lands below the
active mass of the remaining ranges (and at or above the mass consumed so
far), the loop returns the first non-eliminated index whose cumulative
non-eliminated mass exceeds rd. -/
theorem dartLoop_spec (rd : ℝ) (ms : List ℝ) : ∀ (es : List Bool) (sofar : ℝ),
    es.length = ms.length → sofar ≤ rd → rd < sofar + activeMassAux ms es →
    ∃ j, dartLoop rd ms es sofar = some j ∧ es.getD j false = false ∧
      rd < sofar + cumActive ms es (j + 1) ∧
      ∀ k, k < j → es.getD k false = false →
        sofar + cumActive ms es (k + 1) ≤ rd := by
  induction ms with
  | nil =>
    intro es sofar _ hle hlt
    rw [show activeMassAux [] es = 0 from rfl] at hlt
    linarith
  | cons m ms ih =>
    intro es sofar hlen hle hlt
    match es with
    | [] => simp at hlen
    | e :: es =>
      simp only [List.length_cons, add_left_inj] at hlen
      cases e with
      | true =>
        have hlt' : rd < sofar + activeMassAux ms es := by
          have : activeMassAux (m :: ms) (true :: es) = activeMassAux ms es := by
            simp [activeMassAux]
          rw [this] at hlt
          exact hlt
        obtain ⟨j, hj, hjf, hjc, hjk⟩ := ih es sofar hlen hle hlt'
        refine ⟨j + 1, ?_, ?_, ?_, ?_⟩
        · simp [dartLoop, hj]
        · simpa using hjf
        · rw [cumActive_cons]
          simpa using hjc
        · intro k hk hkf
          cases k with
          | zero => simp at hkf
          | succ k =>
            have h := hjk k (by omega) (by simpa using hkf)
            rw [cumActive_cons]
            simpa using h
      | false =>
        by_cases hr : rd < sofar + m
        · refine ⟨0, ?_, ?_, ?_, ?_⟩
          · simp [dartLoop, hr]
          · rfl
          · rw [cumActive_cons, cumActive_zero]
            simpa using hr
          · intro k hk
            exact absurd hk (Nat.not_lt_zero k)
        · push_neg at hr
          have haux : activeMassAux (m :: ms) (false :: es)
              = m + activeMassAux ms es := by
            simp [activeMassAux]
          have hlt' : rd < (sofar + m) + activeMassAux ms es := by
            rw [haux] at hlt
            linarith
          obtain ⟨j, hj, hjf, hjc, hjk⟩ := ih es (sofar + m) hlen hr hlt'
          have hnr : ¬ (rd < sofar + m) := not_lt.mpr hr
          refine ⟨j + 1, ?_, ?_, ?_, ?_⟩
          · simp [dartLoop, hnr, hj]
          · simpa using hjf
          · rw [cumActive_cons]
            simp only [if_neg Bool.false_ne_true]
            linarith
          · intro k hk hkf
            cases k with
            | zero =>
              rw [cumActive_cons, cumActive_zero]
              simpa using hr
            | succ k =>
              have h := hjk k (by omega) (by simpa using hkf)
              rw [cumActive_cons]
              simp only [if_neg Bool.false_ne_true]
              linarith

/-- C4: under the mass invariant, a call to next with at least one
non-eliminated range (positive mass) and a uniform draw rndFloat in [0, 1)
returns the first range index, walking in increasing index order and
accumulating only non-eliminated weights, whose cumulative weight exceeds
the dart rd = rndFloat * mass; in particular the returned index is never an
eliminated index. -/
theorem rowSampler_next_spec (rs : RowSampler) (f : ℝ)
    (hlen : rs.elim.length = rs.masses.length)
    (hinv : rs.mass = activeMassAux rs.masses rs.elim)
    (hpos : 0 < rs.mass) (hf0 : 0 ≤ f) (hf1 : f < 1) :
    ∃ j, rs.next f = some j ∧ rs.elim.getD j false = false ∧
      f * rs.mass < cumActive rs.masses rs.elim (j + 1) ∧
      ∀ k, k < j → rs.elim.getD k false = false →
        cumActive rs.masses rs.elim (k + 1) ≤ f * rs.mass := by
  have h0 : (0 : ℝ) ≤ f * rs.mass := mul_nonneg hf0 hpos.le
  have hlt : f * rs.mass < 0 + activeMassAux rs.masses rs.elim := by
    rw [zero_add, ← hinv]
    calc f * rs.mass < 1 * rs.mass := by
          exact mul_lt_mul_of_pos_right hf1 hpos
    _ = rs.mass := one_mul rs.mass
  obtain ⟨j, hj, hjf, hjc, hjk⟩ :=
    dartLoop_spec (f * rs.mass) rs.masses rs.elim 0 hlen h0 hlt
  refine ⟨j, hj, hjf, by simpa using hjc, fun k hk hkf => by simpa using hjk k hk hkf⟩

/-- C4 witness: the concrete sampler with weights 1 and 1/2, nothing
eliminated, total mass 3/2, and draw 1/2 (dart 3/4). -/
theorem rowSampler_next_spec_witness :
    ∃ j, RowSampler.next ⟨3/2, [false, false], [1, 1/2]⟩ (1/2) = some j ∧
      (⟨3/2, [false, false], [1, 1/2]⟩ : RowSampler).elim.getD j false = false ∧
      (1/2 : ℝ) * (⟨3/2, [false, false], [1, 1/2]⟩ : RowSampler).mass
        < cumActive (⟨3/2, [false, false], [1, 1/2]⟩ : RowSampler).masses
            (⟨3/2, [false, false], [1, 1/2]⟩ : RowSampler).elim (j + 1) ∧
      ∀ k, k < j →
        (⟨3/2, [false, false], [1, 1/2]⟩ : RowSampler).elim.getD k false = false →
        cumActive (⟨3/2, [false, false], [1, 1/2]⟩ : RowSampler).masses
            (⟨3/2, [false, false], [1, 1/2]⟩ : RowSampler).elim (k + 1)
          ≤ (1/2 : ℝ) * (⟨3/2, [false, false], [1, 1/2]⟩ : RowSampler).mass :=
  rowSampler_next_spec ⟨3/2, [false, false], [1, 1/2]⟩ (1/2)
    rfl (by norm_num [activeMassAux]) (by norm_num) (by norm_num) (by norm_num)

/-- If every elimination flag is set, the dart-throw loop falls off the end
of the list (reaching the assert(false), modelled as none), whatever the
dart value and the masses. -/
theorem dartLoop_all_elim (rd : ℝ) (ms : List ℝ) : ∀ (es : List Bool) (sofar : ℝ),
    (∀ e ∈ es, e = true) → dartLoop rd ms es sofar = none := by
  induction ms with
  | nil => intro es sofar _; rfl
  | cons m ms ih =>
    intro es sofar h
    match es with
    | [] => rfl
    | e :: es =>
      have he : e = true := h e (List.mem_cons_self e es)
      subst he
      have := ih es sofar (fun x hx => h x (List.mem_cons_of_mem _ hx))
      simp [dartLoop, this]

/-- C5: calling next when the active mass is zero because every range has
been eliminated, or because the sampler is empty, reaches the assert(false)
at the end of the loop (modelled as none) instead of returning a valid
range index. -/
theorem rowSampler_next_exhausted (rs : RowSampler) (f : ℝ)
    (h : rs.masses = [] ∨ ∀ e ∈ rs.elim, e = true) :
    rs.next f = none := by
  rcases h with h | h
  · rw [RowSampler.next, h]
    rfl
  · exact dartLoop_all_elim (f * rs.mass) rs.masses rs.elim 0 h

/-- C5 witness: a sampler whose two ranges are both eliminated. -/
theorem rowSampler_next_exhausted_witness :
    RowSampler.next ⟨3/2, [true, true], [1, 1/2]⟩ (1/2) = none :=
  rowSampler_next_exhausted ⟨3/2, [true, true], [1, 1/2]⟩ (1/2)
    (Or.inr (by decide))

theorem rsWeight_one : rsWeight 1 = 1 := by
  simp [rsWeight]

theorem rsWeight_four : rsWeight 4 = 1 / 2 := by
  have h4 : ((4 : ℕ) : ℝ) = (2 : ℝ) ^ 2 := by norm_num
  rw [rsWeight, h4, Real.sqrt_sq (by norm_num : (0:ℝ) ≤ 2)]

theorem rsWeight_nine : rsWeight 9 = 1 / 3 := by
  have h9 : ((9 : ℕ) : ℝ) = (3 : ℝ) ^ 2 := by norm_num
  rw [rsWeight, h9, Real.sqrt_sq (by norm_num : (0:ℝ) ≤ 3)]

/-- C7: init assigns range i the weight 1 / sqrt(size of range i) and sets
the total mass to the sum of these weights; for ranges of sizes 1, 4, 9 the
weights are 1, 1/2, 1/3, and finishedRange(0) then reduces the mass by
exactly 1. -/
theorem rowSampler_init_weights (salist : List ℕ) (sai saf : ℕ) :
    ((RowSampler.init salist sai saf).masses
        = ((salist.drop sai).take (saf - sai)).map rsWeight ∧
     (RowSampler.init salist sai saf).mass
        = (((salist.drop sai).take (saf - sai)).map rsWeight).sum) ∧
    (RowSampler.init [1, 4, 9] 0 3).masses = [1, 1/2, (1/3 : ℝ)] ∧
    ((RowSampler.init [1, 4, 9] 0 3).finishedRange 0).mass
      = (RowSampler.init [1, 4, 9] 0 3).mass - 1 := by
  refine ⟨⟨rfl, ?_⟩, ?_, ?_⟩
  · show (((salist.drop sai).take (saf - sai)).map rsWeight).foldl (· + ·) 0 = _
    rw [foldl_add_eq_sum, zero_add]
  · have h2 : (RowSampler.init [1, 4, 9] 0 3).masses
        = [rsWeight 1, rsWeight 4, rsWeight 9] := rfl
    rw [h2, rsWeight_one, rsWeight_four, rsWeight_nine]
  · have h1 : ((RowSampler.init [1, 4, 9] 0 3).finishedRange 0).mass
        = (RowSampler.init [1, 4, 9] 0 3).mass - rsWeight 1 := rfl
    rw [h1, rsWeight_one]
